import Mathlib

/-!
Verification of `dms_tools2/utils.py` (sequence-processing core of the
dms_tools2 deep-mutational-scanning pipeline).

Sequences are shallowly embedded as `List Char`, count tables as functions,
fractions (a float in the reference implementation) as `ℚ`, and the
fallible aligner as `Option`.  Each definition mirrors the pure-Python
reference path of the corresponding function in the source.
-/

namespace DmsTools2

/-- Python-style slice `l[a:b]` for `0 ≤ a ≤ b`. -/
def slice (l : List Char) (a b : Nat) : List Char :=
  (l.drop a).take (b - a)

/-- `lowQtoN` from `utils.py` lines 201-229: positions whose quality
character is below `minq` are replaced by an ambiguous `N`.
Mirrors `''.join([ri if qi >= minq else 'N' for (ri, qi) in zip(r, q)])`. -/
def lowQtoN (r q : List Char) (minq : Char) : List Char :=
  List.zipWith (fun ri qi => if minq ≤ qi then ri else 'N') r q

/-- Modelled from the spec: `dms_tools2.NTCOMPLEMENT` is defined in the
package `__init__` which is not part of `src/`; the spec fixes the table
as A↔T, C↔G, N↔N.  Behaviour outside the {A,C,G,T,N} alphabet is
unspecified (the reference raises a KeyError); we return the character
unchanged there, and every theorem restricts to the valid alphabet. -/
def ntcomplement (c : Char) : Char :=
  if c = 'A' then 'T'
  else if c = 'T' then 'A'
  else if c = 'C' then 'G'
  else if c = 'G' then 'C'
  else if c = 'N' then 'N'
  else c

/-- `reverseComplement` from `utils.py` lines 294-312: mirrors
`''.join(reversed([dms_tools2.NTCOMPLEMENT[nt] for nt in s]))`. -/
def reverseComplement (s : List Char) : List Char :=
  (s.map ntcomplement).reverse

lemma ntcomplement_involutive {c : Char}
    (hc : c ∈ ['A', 'C', 'G', 'T', 'N']) :
    ntcomplement (ntcomplement c) = c := by
  fin_cases hc <;> rfl

/-- C8: `lowQtoN` preserves length; every output position is the original
read character or `N`; positions whose quality is at least the threshold
are unchanged, and positions whose quality is below it become `N`. -/
theorem lowQtoN_spec (r q : List Char) (minq : Char)
    (hlen : r.length = q.length) :
    (lowQtoN r q minq).length = r.length ∧
    ∀ i, i < r.length →
      ((minq ≤ q.getD i 'N' → (lowQtoN r q minq).getD i 'N' = r.getD i 'N') ∧
       (q.getD i 'N' < minq → (lowQtoN r q minq).getD i 'N' = 'N') ∧
       ((lowQtoN r q minq).getD i 'N' = r.getD i 'N' ∨
        (lowQtoN r q minq).getD i 'N' = 'N')) := by
  have hl : (lowQtoN r q minq).length = r.length := by
    simp [lowQtoN, hlen]
  refine ⟨hl, ?_⟩
  intro i hi
  have hiq : i < q.length := hlen ▸ hi
  have hout : i < (lowQtoN r q minq).length := hl ▸ hi
  have hget : (lowQtoN r q minq).getD i 'N' =
      (if minq ≤ q.getD i 'N' then r.getD i 'N' else 'N') := by
    rw [List.getD_eq_getElem _ _ hout, List.getD_eq_getElem _ _ hi,
      List.getD_eq_getElem _ _ hiq]
    simp [lowQtoN]
  constructor
  · intro h
    rw [hget, if_pos h]
  constructor
  · intro h
    rw [hget, if_neg (not_le.mpr h)]
  · rw [hget]
    by_cases h : minq ≤ q.getD i 'N'
    · exact Or.inl (by rw [if_pos h])
    · exact Or.inr (by rw [if_neg h])

/-- C8 witness at the doctest input `r='ATGCAT'`, `q='GB<.0+'`, `minq='0'`. -/
theorem lowQtoN_spec_witness :
    ("ATGCAT".toList.length = "GB<.0+".toList.length) ∧
    (lowQtoN "ATGCAT".toList "GB<.0+".toList '0').length =
      "ATGCAT".toList.length ∧
    lowQtoN "ATGCAT".toList "GB<.0+".toList '0' = "ATGNAN".toList :=
  ⟨by decide,
   (lowQtoN_spec "ATGCAT".toList "GB<.0+".toList '0' (by decide)).1,
   by decide⟩

/-- C9: reverse complementation is an involution on sequences over the
alphabet {A,C,G,T,N}. -/
theorem reverseComplement_involutive (s : List Char)
    (hs : ∀ c ∈ s, c ∈ ['A', 'C', 'G', 'T', 'N']) :
    reverseComplement (reverseComplement s) = s := by
  unfold reverseComplement
  rw [List.map_reverse, List.reverse_reverse, List.map_map]
  have : List.map (ntcomplement ∘ ntcomplement) s = List.map id s :=
    List.map_congr_left fun c hc => ntcomplement_involutive (hs c hc)
  rw [this, List.map_id]

/-- C9 witness at the doctest input `'ATGCAAN'` (whose reverse complement
is `'NTTGCAT'`). -/
theorem reverseComplement_involutive_witness :
    (∀ c ∈ "ATGCAAN".toList, c ∈ ['A', 'C', 'G', 'T', 'N']) ∧
    reverseComplement "ATGCAAN".toList = "NTTGCAT".toList ∧
    reverseComplement (reverseComplement "ATGCAAN".toList) =
      "ATGCAAN".toList :=
  ⟨by decide, by decide,
   reverseComplement_involutive "ATGCAAN".toList (by decide)⟩

/-! ### Subamplicon alignment (`alignSubamplicon`, `utils.py` lines 315-456) -/

/-- Codon shift used by `alignSubamplicon` (lines 434-443): the number of
leading subamplicon characters that precede the first codon boundary. -/
def alignCodonShift (refseqstart : Nat) : Nat :=
  if refseqstart % 3 = 1 then 0
  else if refseqstart % 3 = 2 then 2
  else 1

/-- First fully-contained codon (1-based) used by `alignSubamplicon`
(lines 434-443). -/
def alignStartCodon (refseqstart : Nat) : Nat :=
  if refseqstart % 3 = 1 then (refseqstart + 2) / 3
  else if refseqstart % 3 = 2 then (refseqstart + 1) / 3 + 1
  else refseqstart / 3 + 1

/-- Merged character at output position `i` (lines 409-428).  Positions with
`i + len(r2) < L` are covered only by `r1`; otherwise the `r2` index is
`i - (L - len(r2))`, written Nat-safely as `i + len(r2) - L`. -/
def mergeAt (r1 r2c : List Char) (L i : Nat) : Char :=
  if i + r2c.length < L then
    if i < r1.length then r1.getD i 'N' else 'N'
  else
    if i < r1.length then
      if r1.getD i 'N' = r2c.getD (i + r2c.length - L) 'N' then r1.getD i 'N'
      else if r1.getD i 'N' = 'N' then r2c.getD (i + r2c.length - L) 'N'
      else if r2c.getD (i + r2c.length - L) 'N' = 'N' then r1.getD i 'N'
      else 'N'
    else r2c.getD (i + r2c.length - L) 'N'

/-- The merged subamplicon of length `L` built from `r1` and the already
reverse-complemented `r2c` (lines 408-429). -/
def mergedSubamplicon (r1 r2c : List Char) (L : Nat) : List Char :=
  (List.range L).map (mergeAt r1 r2c L)

/-- Number of fully-covered, `N`-free codons of the subamplicon differing
from the reference codon (the loop of lines 444-452; the source
short-circuits on `nmuts > maxmuts`, which rejects exactly when this total
count exceeds `maxmuts`). -/
def nMutCodons (refseq sub : List Char) (refseqstart refseqend : Nat) : Nat :=
  (List.range' (alignStartCodon refseqstart)
      (refseqend / 3 + 1 - alignStartCodon refseqstart)).countP
    (fun ic => decide
      (¬ 'N' ∈ slice sub
          (3 * (ic - alignStartCodon refseqstart) + alignCodonShift refseqstart)
          (3 * (ic - alignStartCodon refseqstart) + 3 + alignCodonShift refseqstart) ∧
       slice sub
          (3 * (ic - alignStartCodon refseqstart) + alignCodonShift refseqstart)
          (3 * (ic - alignStartCodon refseqstart) + 3 + alignCodonShift refseqstart) ≠
        slice refseq (3 * ic - 3) (3 * ic)))

/-- `alignSubamplicon` from `utils.py` lines 315-456, specialised to the
only allowed `chartype = 'codon'`; `none` models the Python return value
`False` (rejection). -/
def alignSubamplicon (refseq r1 r2 : List Char)
    (refseqstart refseqend maxmuts maxN : Nat) : Option (List Char) :=
  let r2c := reverseComplement r2
  let sub := mergedSubamplicon r1 r2c (refseqend - refseqstart + 1)
  if sub.count 'N' > maxN then none
  else if nMutCodons refseq sub refseqstart refseqend > maxmuts then none
  else some sub

/-! ### Count accumulation (`incrementCounts`, `utils.py` lines 459-525) -/

/-- Codon shift computed by `incrementCounts` (lines 508-517). -/
def incCodonShift (refseqstart : Nat) : Nat :=
  if refseqstart % 3 = 1 then 0
  else if refseqstart % 3 = 2 then 2
  else 1

/-- First codon index (0-based) computed by `incrementCounts`
(lines 508-517). -/
def incStartCodon (refseqstart : Nat) : Nat :=
  if refseqstart % 3 = 1 then (refseqstart + 2) / 3 - 1
  else if refseqstart % 3 = 2 then (refseqstart + 1) / 3
  else refseqstart / 3

/-- Add one to a single (codon, site) cell of a counts table. -/
def bumpCount (counts : List Char → Nat → Nat) (codon : List Char)
    (site : Nat) : List Char → Nat → Nat :=
  fun c s => if c = codon ∧ s = site then counts c s + 1 else counts c s

/-- `incrementCounts` from `utils.py` lines 459-525 for
`chartype = 'codon'`: drop the leading `codonshift` characters, walk the
complete codons, and bump `counts[codon][startcodon + i]` for every codon
without an `N`. -/
def incrementCounts (refseqstart : Nat) (subamplicon : List Char)
    (counts : List Char → Nat → Nat) : List Char → Nat → Nat :=
  let shifted := subamplicon.drop (incCodonShift refseqstart)
  (List.range (shifted.length / 3)).foldl
    (fun cts i =>
      if 'N' ∈ slice shifted (3 * i) (3 * i + 3) then cts
      else bumpCount cts (slice shifted (3 * i) (3 * i + 3))
        (incStartCodon refseqstart + i))
    counts

/-- Fold `incrementCounts` over a batch of (refseqstart, subamplicon)
pairs. -/
def applySubamplicons (ps : List (Nat × List Char))
    (counts : List Char → Nat → Nat) : List Char → Nat → Nat :=
  ps.foldl (fun cts p => incrementCounts p.1 p.2 cts) counts

/-- C2: `alignSubamplicon` and `incrementCounts` derive the identical codon
shift from `refStart % 3` (remainder 1 → shift 0, remainder 2 → shift 2,
remainder 0 → shift 1); the codons the aligner gates are exactly the
consecutive triples of the shift-dropped subamplicon, and their number is
`(len - shift) / 3`, so the leading shift characters and any trailing
incomplete codon are ignored by both. -/
theorem codonFrame_consistent (refseqstart : Nat) (h1 : 1 ≤ refseqstart) :
    (alignCodonShift refseqstart = incCodonShift refseqstart) ∧
    (refseqstart % 3 = 1 → alignCodonShift refseqstart = 0) ∧
    (refseqstart % 3 = 2 → alignCodonShift refseqstart = 2) ∧
    (refseqstart % 3 = 0 → alignCodonShift refseqstart = 1) ∧
    (alignStartCodon refseqstart = incStartCodon refseqstart + 1) ∧
    ∀ refseqend : Nat, ∀ sub : List Char,
      refseqstart ≤ refseqend →
      sub.length = refseqend - refseqstart + 1 →
      ((refseqend / 3 + 1 - alignStartCodon refseqstart =
          (sub.drop (alignCodonShift refseqstart)).length / 3) ∧
       ∀ i, i < refseqend / 3 + 1 - alignStartCodon refseqstart →
         slice sub (3 * i + alignCodonShift refseqstart)
             (3 * i + 3 + alignCodonShift refseqstart) =
           slice (sub.drop (alignCodonShift refseqstart)) (3 * i)
             (3 * i + 3)) := by
  have hmod : refseqstart % 3 = 0 ∨ refseqstart % 3 = 1 ∨
      refseqstart % 3 = 2 := by omega
  refine ⟨?_, ?_, ?_, ?_, ?_, ?_⟩
  · rfl
  · intro h; simp [alignCodonShift, h]
  · intro h; simp [alignCodonShift, h]
  · intro h; simp [alignCodonShift, h]
  · unfold alignStartCodon incStartCodon
    rcases hmod with h | h | h <;> simp [h] <;> omega
  · intro refseqend sub hle hlen
    constructor
    · rw [List.length_drop, hlen]
      unfold alignStartCodon alignCodonShift
      rcases hmod with h | h | h <;> simp [h] <;> omega
    · intro i _
      unfold slice
      rw [List.drop_drop]
      have h3 : 3 * i + 3 + alignCodonShift refseqstart -
          (3 * i + alignCodonShift refseqstart) = 3 := by omega
      have h3' : 3 * i + 3 - 3 * i = 3 := by omega
      rw [h3, h3', Nat.add_comm (3 * i) (alignCodonShift refseqstart)]

/-- C2 witness: instantiated at the three phases `refStart = 3, 4, 5`
(remainders 0, 1, 2) with a concrete subamplicon. -/
theorem codonFrame_consistent_witness :
    ((1 : Nat) ≤ 4) ∧ alignCodonShift 4 = 0 ∧
    ((1 : Nat) ≤ 5) ∧ alignCodonShift 5 = 2 ∧
    ((1 : Nat) ≤ 3) ∧ alignCodonShift 3 = 1 ∧
    ((3 : Nat) ≤ 9) ∧ ("GGGGAAA".toList.length = 9 - 3 + 1) ∧
    9 / 3 + 1 - alignStartCodon 3 =
      ("GGGGAAA".toList.drop (alignCodonShift 3)).length / 3 :=
  ⟨by decide, (codonFrame_consistent 4 (by decide)).2.1 (by decide),
   by decide, (codonFrame_consistent 5 (by decide)).2.2.1 (by decide),
   by decide, (codonFrame_consistent 3 (by decide)).2.2.2.1 (by decide),
   by decide, by decide,
   ((codonFrame_consistent 3 (by decide)).2.2.2.2.2 9 "GGGGAAA".toList
     (by decide) (by decide)).1⟩

lemma getD_map_range (f : Nat → Char) (L i : Nat) (hi : i < L) (d : Char) :
    ((List.range L).map f).getD i d = f i := by
  have hlen : ((List.range L).map f).length = L := by simp
  rw [List.getD_eq_getElem _ _ (by rw [hlen]; exact hi)]
  simp

/-- C1: with `chartype = 'codon'`, `alignSubamplicon` returns exactly the
merged subamplicon (length `refEnd - refStart + 1`, r1/r2 overlap resolved
by: agreement keeps the character, a one-sided `N` takes the other read's
call, disagreement yields `N`) if and only if the merged sequence has at
most `maxN` ambiguous characters and at most `maxmuts` fully-covered
`N`-free mutated codons, and rejects (`none`) otherwise; in particular the
doctest vectors: reference `ATGGGGAAA`, r1 `GGGGAA`, r2 `TTTCCC`,
`refStart = 3`, `refEnd = 9`, `maxmuts = maxN = 1` gives `GGGGAAA`, while
the same inputs with `refStart = 1` are rejected. -/
theorem alignSubamplicon_spec (refseq r1 r2 : List Char)
    (rs re mm mn : Nat) (hdiv : 3 ∣ refseq.length) (hse : rs ≤ re) :
    (∀ s, alignSubamplicon refseq r1 r2 rs re mm mn = some s ↔
       (s = mergedSubamplicon r1 (reverseComplement r2) (re - rs + 1) ∧
        s.count 'N' ≤ mn ∧ nMutCodons refseq s rs re ≤ mm)) ∧
    (alignSubamplicon refseq r1 r2 rs re mm mn = none ↔
       ¬ ((mergedSubamplicon r1 (reverseComplement r2)
            (re - rs + 1)).count 'N' ≤ mn ∧
          nMutCodons refseq
            (mergedSubamplicon r1 (reverseComplement r2) (re - rs + 1))
            rs re ≤ mm)) ∧
    ((mergedSubamplicon r1 (reverseComplement r2) (re - rs + 1)).length =
       re - rs + 1) ∧
    (∀ i, i < re - rs + 1 →
       (mergedSubamplicon r1 (reverseComplement r2)
           (re - rs + 1)).getD i 'N' =
         (if i + (reverseComplement r2).length < re - rs + 1 then
            if i < r1.length then r1.getD i 'N' else 'N'
          else
            if i < r1.length then
              if r1.getD i 'N' = (reverseComplement r2).getD
                  (i + (reverseComplement r2).length - (re - rs + 1)) 'N' then
                r1.getD i 'N'
              else if r1.getD i 'N' = 'N' then
                (reverseComplement r2).getD
                  (i + (reverseComplement r2).length - (re - rs + 1)) 'N'
              else if (reverseComplement r2).getD
                  (i + (reverseComplement r2).length - (re - rs + 1)) 'N' =
                  'N' then
                r1.getD i 'N'
              else 'N'
            else
              (reverseComplement r2).getD
                (i + (reverseComplement r2).length - (re - rs + 1)) 'N')) ∧
    alignSubamplicon "ATGGGGAAA".toList "GGGGAA".toList "TTTCCC".toList
      3 9 1 1 = some "GGGGAAA".toList ∧
    alignSubamplicon "ATGGGGAAA".toList "GGGGAA".toList "TTTCCC".toList
      1 9 1 1 = none := by
  set r2c := reverseComplement r2 with hr2c
  set L := re - rs + 1 with hL
  set sub := mergedSubamplicon r1 r2c L with hsub
  have halign : alignSubamplicon refseq r1 r2 rs re mm mn =
      if sub.count 'N' > mn then none
      else if nMutCodons refseq sub rs re > mm then none
      else some sub := rfl
  refine ⟨?_, ?_, ?_, ?_, by decide, by decide⟩
  · intro s
    rw [halign]
    split_ifs with hN hM
    · simp only [false_iff, reduceCtorEq]
      rintro ⟨rfl, hc, -⟩
      omega
    · simp only [false_iff, reduceCtorEq]
      rintro ⟨rfl, -, hm⟩
      omega
    · constructor
      · intro h
        injection h with h
        exact ⟨h.symm, by rw [← h]; omega, by rw [← h]; omega⟩
      · rintro ⟨rfl, -, -⟩
        rfl
  · rw [halign]
    split_ifs with hN hM
    · exact iff_of_true rfl (fun hc => absurd hc.1 (by omega))
    · exact iff_of_true rfl (fun hc => absurd hc.2 (by omega))
    · exact iff_of_false (by simp) (not_not.mpr ⟨by omega, by omega⟩)
  · rw [hsub]
    simp [mergedSubamplicon]
  · intro i hi
    rw [hsub, mergedSubamplicon, getD_map_range _ _ _ hi]
    rfl

/-- C1 witness at the first doctest vector. -/
theorem alignSubamplicon_spec_witness :
    (3 ∣ "ATGGGGAAA".toList.length) ∧ ((3 : Nat) ≤ 9) ∧
    alignSubamplicon "ATGGGGAAA".toList "GGGGAA".toList "TTTCCC".toList
      3 9 1 1 = some "GGGGAAA".toList :=
  ⟨by decide, by decide,
   (alignSubamplicon_spec "ATGGGGAAA".toList "GGGGAA".toList
     "TTTCCC".toList 3 9 1 1 (by decide) (by decide)).2.2.2.2.1⟩

/-- The per-cell increment contributed by a single `incrementCounts` call:
the number of complete `N`-free codons of the shifted subamplicon equal to
`c` whose site is `s`. -/
def incDelta (refseqstart : Nat) (subamplicon : List Char)
    (c : List Char) (s : Nat) : Nat :=
  (List.range ((subamplicon.drop (incCodonShift refseqstart)).length / 3)).countP
    (fun i => decide
      (slice (subamplicon.drop (incCodonShift refseqstart)) (3 * i) (3 * i + 3) = c ∧
       incStartCodon refseqstart + i = s ∧
       ¬ 'N' ∈ slice (subamplicon.drop (incCodonShift refseqstart))
          (3 * i) (3 * i + 3)))

lemma incrementCounts_apply (n : Nat) (sub : List Char)
    (counts : List Char → Nat → Nat) (c : List Char) (s : Nat) :
    incrementCounts n sub counts c s = counts c s + incDelta n sub c s := by
  unfold incrementCounts incDelta
  generalize sub.drop (incCodonShift n) = shifted
  generalize List.range (shifted.length / 3) = is
  induction is generalizing counts with
  | nil => simp
  | cons i is ih =>
    rw [List.foldl_cons, List.countP_cons, ih]
    have hstep : (if 'N' ∈ slice shifted (3 * i) (3 * i + 3) then counts
        else bumpCount counts (slice shifted (3 * i) (3 * i + 3))
          (incStartCodon n + i)) c s =
        counts c s +
          (if (decide (slice shifted (3 * i) (3 * i + 3) = c ∧
              incStartCodon n + i = s ∧
              ¬ 'N' ∈ slice shifted (3 * i) (3 * i + 3))) then 1 else 0) := by
      by_cases hN : 'N' ∈ slice shifted (3 * i) (3 * i + 3)
      · simp [hN]
      · by_cases hc : slice shifted (3 * i) (3 * i + 3) = c ∧
            incStartCodon n + i = s
        · obtain ⟨h1, h2⟩ := hc
          subst h1
          subst h2
          simp [bumpCount, hN]
        · have hc' : ¬ (c = slice shifted (3 * i) (3 * i + 3) ∧
              s = incStartCodon n + i) := by
            rintro ⟨a, b⟩
            exact hc ⟨a.symm, b.symm⟩
          simp [bumpCount, hN, hc, hc']
    rw [hstep]
    omega

lemma applySubamplicons_apply (ps : List (Nat × List Char))
    (counts : List Char → Nat → Nat) (c : List Char) (s : Nat) :
    applySubamplicons ps counts c s =
      counts c s + (ps.map (fun p => incDelta p.1 p.2 c s)).sum := by
  induction ps generalizing counts with
  | nil => simp [applySubamplicons]
  | cons p ps ih =>
    show applySubamplicons ps (incrementCounts p.1 p.2 counts) c s = _
    rw [ih, incrementCounts_apply]
    simp [Nat.add_assoc]

/-- C3: accumulating a batch of (refStart, subamplicon) pairs with
`incrementCounts` gives the same table for every permutation of the batch;
each call only adds (counts never decrease); and each complete `N`-free
codon of a subamplicon adds exactly `+1` to its (site, codon) cell. -/
theorem incrementCounts_order_independent (counts : List Char → Nat → Nat)
    (ps₁ ps₂ : List (Nat × List Char)) (hperm : ps₁.Perm ps₂) :
    (applySubamplicons ps₁ counts = applySubamplicons ps₂ counts) ∧
    (∀ n sub c s, counts c s ≤ incrementCounts n sub counts c s) ∧
    (∀ n sub i, i < (sub.drop (incCodonShift n)).length / 3 →
      ¬ 'N' ∈ slice (sub.drop (incCodonShift n)) (3 * i) (3 * i + 3) →
      incrementCounts n sub counts
          (slice (sub.drop (incCodonShift n)) (3 * i) (3 * i + 3))
          (incStartCodon n + i) =
        counts (slice (sub.drop (incCodonShift n)) (3 * i) (3 * i + 3))
          (incStartCodon n + i) + 1) := by
  refine ⟨?_, ?_, ?_⟩
  · funext c s
    rw [applySubamplicons_apply, applySubamplicons_apply]
    congr 1
    exact (hperm.map _).sum_eq
  · intro n sub c s
    rw [incrementCounts_apply]
    exact Nat.le_add_right _ _
  · intro n sub i hi hN
    rw [incrementCounts_apply]
    congr 1
    unfold incDelta
    have hcong : (List.range ((sub.drop (incCodonShift n)).length / 3)).countP
        (fun j => decide
          (slice (sub.drop (incCodonShift n)) (3 * j) (3 * j + 3) =
              slice (sub.drop (incCodonShift n)) (3 * i) (3 * i + 3) ∧
           incStartCodon n + j = incStartCodon n + i ∧
           ¬ 'N' ∈ slice (sub.drop (incCodonShift n)) (3 * j) (3 * j + 3))) =
        (List.range ((sub.drop (incCodonShift n)).length / 3)).countP
          (fun j => j == i) := by
      refine List.countP_congr ?_
      intro j _
      constructor
      · intro h
        have h' := of_decide_eq_true h
        have : j = i := by omega
        simp [this]
      · intro h
        have : j = i := by simpa using h
        subst this
        exact decide_eq_true ⟨rfl, rfl, hN⟩
    rw [hcong]
    have : (List.range ((sub.drop (incCodonShift n)).length / 3)).countP
        (fun j => j == i) =
        (List.range ((sub.drop (incCodonShift n)).length / 3)).count i := rfl
    rw [this]
    exact List.count_eq_one_of_mem (List.nodup_range _) (List.mem_range.mpr hi)

/-- C3 witness: a two-element batch and its transposition give the same
table, and the `+1` law at a concrete codon of the doctest subamplicon
`ATGGACTTTC` aligned at `refStart = 1`. -/
theorem incrementCounts_order_independent_witness :
    ([((1 : Nat), "ATGGACTTTC".toList), ((3 : Nat), "GGTCTTTCCCGGN".toList)].Perm
      [((3 : Nat), "GGTCTTTCCCGGN".toList), ((1 : Nat), "ATGGACTTTC".toList)]) ∧
    (applySubamplicons
        [((1 : Nat), "ATGGACTTTC".toList), ((3 : Nat), "GGTCTTTCCCGGN".toList)]
        (fun _ _ => 0) =
      applySubamplicons
        [((3 : Nat), "GGTCTTTCCCGGN".toList), ((1 : Nat), "ATGGACTTTC".toList)]
        (fun _ _ => 0)) ∧
    ((0 : Nat) < ("ATGGACTTTC".toList.drop (incCodonShift 1)).length / 3) ∧
    (¬ 'N' ∈ slice ("ATGGACTTTC".toList.drop (incCodonShift 1)) 0 3) ∧
    incrementCounts 1 "ATGGACTTTC".toList (fun _ _ => 0)
        (slice ("ATGGACTTTC".toList.drop (incCodonShift 1)) 0 3)
        (incStartCodon 1 + 0) =
      (fun _ _ => (0 : Nat))
        (slice ("ATGGACTTTC".toList.drop (incCodonShift 1)) 0 3)
        (incStartCodon 1 + 0) + 1 := by
  have hperm : ([((1 : Nat), "ATGGACTTTC".toList),
      ((3 : Nat), "GGTCTTTCCCGGN".toList)].Perm
      [((3 : Nat), "GGTCTTTCCCGGN".toList),
       ((1 : Nat), "ATGGACTTTC".toList)]) := List.Perm.swap _ _ _
  have h := incrementCounts_order_independent (fun _ _ => 0) _ _ hperm
  exact ⟨hperm, h.1, by decide, by decide,
    (by simpa using h.2.2 1 "ATGGACTTTC".toList 0 (by decide) (by decide))⟩

/-! ### Error-count adjustment (`adjustErrorCounts`, `utils.py` lines 721-780) -/

/-- Round half to even, the rounding used by `pandas.DataFrame.round()`
(numpy banker's rounding), applied in `utils.py` line 771. -/
def roundHalfEven (q : ℚ) : ℤ :=
  if q - ⌊q⌋ < 1 / 2 then ⌊q⌋
  else if 1 / 2 < q - ⌊q⌋ then ⌊q⌋ + 1
  else if (2 : ℤ) ∣ ⌊q⌋ then ⌊q⌋ else ⌊q⌋ + 1

/-- One row of a counts table: the `site` and `wildtype` columns plus the
numeric columns, keyed by column name. -/
structure CountsRow where
  site : Int
  wildtype : String
  vals : String → Int

/-- Row-level core of `adjustErrorCounts` (`utils.py` lines 763-780) after
the two tables have been sorted by site and aligned: `maxallowed` is
`round(counts[c]/countsTotal * errTotal + maxexcess)`; error counts are
clamped to it except at the wildtype character; every column outside
`charlist` is copied from the row of `counts` (the sample table), which is
what `adj_errcounts[col] = counts[col]` on line 779 does. -/
def adjustErrorCountsRow (errRow cntRow : CountsRow)
    (charlist : List String) (maxexcess : ℚ) : CountsRow :=
  let sTotal : ℚ := ((charlist.map cntRow.vals).sum : ℤ)
  let eTotal : ℤ := (charlist.map errRow.vals).sum
  let maxallowed : String → ℤ := fun c =>
    roundHalfEven ((cntRow.vals c : ℚ) / sTotal * (eTotal : ℚ) + maxexcess)
  let adj : String → ℤ := fun c =>
    if errRow.vals c < maxallowed c then errRow.vals c else maxallowed c
  let adjW : String → ℤ := fun c =>
    if cntRow.wildtype ≠ c then adj c else errRow.vals c
  { site := cntRow.site
    wildtype := cntRow.wildtype
    vals := fun c => if c ∈ charlist then adjW c else cntRow.vals c }

/-- C4: in the adjusted row the wildtype character keeps its original
error count, and every non-wildtype character of `charlist` is at most
`round(sampleCount/sampleTotal * errorTotal + maxExcess)`. -/
theorem adjustErrorCounts_clamp (errRow cntRow : CountsRow)
    (charlist : List String) (maxexcess : ℚ)
    (hsite : errRow.site = cntRow.site)
    (hwt : errRow.wildtype = cntRow.wildtype)
    (hwtmem : cntRow.wildtype ∈ charlist) :
    ((adjustErrorCountsRow errRow cntRow charlist maxexcess).vals
        cntRow.wildtype = errRow.vals cntRow.wildtype) ∧
    (∀ c ∈ charlist, c ≠ cntRow.wildtype →
      (adjustErrorCountsRow errRow cntRow charlist maxexcess).vals c ≤
        roundHalfEven ((cntRow.vals c : ℚ) /
            (((charlist.map cntRow.vals).sum : ℤ) : ℚ) *
            ((((charlist.map errRow.vals).sum : ℤ)) : ℚ) + maxexcess)) := by
  constructor
  · show (if cntRow.wildtype ∈ charlist then _ else _) = _
    rw [if_pos hwtmem]
    simp
  · intro c hc hne
    show (if c ∈ charlist then _ else _) ≤ _
    rw [if_pos hc]
    have hne' : cntRow.wildtype ≠ c := fun h => hne h.symm
    rw [if_pos hne']
    dsimp only
    split_ifs with h
    · exact le_of_lt h
    · exact le_rfl

/-- The error-control row of the `adjustErrorCounts` doctest, with one
extra non-charlist column `extra`. -/
def errRowEx : CountsRow :=
  ⟨1, "A", fun c => if c = "A" then 250 else if c = "C" then 1
    else if c = "G" then 30 else if c = "T" then 10
    else if c = "extra" then 5 else 0⟩

/-- The sample row of the `adjustErrorCounts` doctest, with one extra
non-charlist column `extra` whose value differs from `errRowEx`'s. -/
def cntRowEx : CountsRow :=
  ⟨1, "A", fun c => if c = "A" then 500 else if c = "C" then 10
    else if c = "G" then 40 else if c = "T" then 20
    else if c = "extra" then 7 else 0⟩

lemma adjustRowEx_G :
    (adjustErrorCountsRow errRowEx cntRowEx ["A", "C", "G", "T"] 1).vals
      "G" = 21 := by
  have hsum : ((["A", "C", "G", "T"].map cntRowEx.vals).sum : ℤ) = 570 := by
    decide
  have hesum : ((["A", "C", "G", "T"].map errRowEx.vals).sum : ℤ) = 291 := by
    decide
  have hG : cntRowEx.vals "G" = 40 := by decide
  have heG : errRowEx.vals "G" = 30 := by decide
  simp only [adjustErrorCountsRow]
  rw [if_pos (by decide : "G" ∈ ["A", "C", "G", "T"])]
  rw [if_pos (by decide : cntRowEx.wildtype ≠ "G")]
  rw [hsum, hesum, hG, heG]
  have hq : ((40 : ℤ) : ℚ) / ((570 : ℤ) : ℚ) * ((291 : ℤ) : ℚ) + 1 =
      407 / 19 := by norm_num
  rw [hq]
  have hfl : ⌊(407 / 19 : ℚ)⌋ = 21 := by
    rw [Int.floor_eq_iff]
    norm_num
  have hrhe : roundHalfEven (407 / 19) = 21 := by
    unfold roundHalfEven
    rw [hfl]
    norm_num
  rw [hrhe]
  norm_num

/-- C4 witness at the doctest tables (`site 1`, wildtype `A`, sample
counts A=500 C=10 G=40 T=20, error counts A=250 C=1 G=30 T=10,
`maxexcess = 1`): the wildtype keeps its error count 250 (via the main
theorem) and the `G` count is clamped to 21. -/
theorem adjustErrorCounts_clamp_witness :
    (errRowEx.site = cntRowEx.site) ∧
    (errRowEx.wildtype = cntRowEx.wildtype) ∧
    (cntRowEx.wildtype ∈ ["A", "C", "G", "T"]) ∧
    ((adjustErrorCountsRow errRowEx cntRowEx ["A", "C", "G", "T"] 1).vals
        cntRowEx.wildtype = errRowEx.vals cntRowEx.wildtype) ∧
    ((adjustErrorCountsRow errRowEx cntRowEx ["A", "C", "G", "T"] 1).vals
        "G" = 21) :=
  ⟨rfl, rfl, by decide,
   (adjustErrorCounts_clamp errRowEx cntRowEx ["A", "C", "G", "T"] 1
     rfl rfl (by decide)).1,
   adjustRowEx_G⟩

/-- C5 evaluation: `adjustErrorCounts` copies columns outside `charlist`
from the SAMPLE counts table (`adj_errcounts[col] = counts[col]`,
`utils.py` line 779), not from `errcounts` as its docstring and the spec
state: with an extra column holding 5 in the error table and 7 in the
sample table, the output holds 7. -/
theorem adjustErrorCounts_extra_column_from_counts :
    ((adjustErrorCountsRow errRowEx cntRowEx
        ["A", "C", "G", "T"] 1).vals "extra" = 7) ∧
    (errRowEx.vals "extra" = 5) ∧
    ((adjustErrorCountsRow errRowEx cntRowEx
        ["A", "C", "G", "T"] 1).vals "extra" ≠ errRowEx.vals "extra") :=
  ⟨by decide, by decide, by decide⟩

/-! ### Codon-count annotation (`annotateCodonCounts`, `utils.py`
lines 578-718) -/

/-- Modelled from the spec: `dms_tools2.NTS` (the nucleotide alphabet
`ACGT`) is defined in the package `__init__`, which is not part of
`src/`. -/
def NTS : List Char := ['A', 'C', 'G', 'T']

/-- Modelled from the spec: `dms_tools2.CODONS`, the 64-element codon
alphabet (all length-3 words over `NTS` in product order), defined in the
package `__init__`, which is not part of `src/`. -/
def CODONS : List String :=
  NTS.bind fun a => NTS.bind fun b => NTS.map fun c => String.mk [a, b, c]

/-- Modelled from the spec: `dms_tools2.CODON_TO_AA`, the standard genetic
code mapping each codon to an amino acid with `*` the stop symbol, defined
in the package `__init__`, which is not part of `src/`. -/
def CODON_TO_AA (c : String) : Char :=
  match c with
  | "AAA" => 'K' | "AAC" => 'N' | "AAG" => 'K' | "AAT" => 'N'
  | "ACA" => 'T' | "ACC" => 'T' | "ACG" => 'T' | "ACT" => 'T'
  | "AGA" => 'R' | "AGC" => 'S' | "AGG" => 'R' | "AGT" => 'S'
  | "ATA" => 'I' | "ATC" => 'I' | "ATG" => 'M' | "ATT" => 'I'
  | "CAA" => 'Q' | "CAC" => 'H' | "CAG" => 'Q' | "CAT" => 'H'
  | "CCA" => 'P' | "CCC" => 'P' | "CCG" => 'P' | "CCT" => 'P'
  | "CGA" => 'R' | "CGC" => 'R' | "CGG" => 'R' | "CGT" => 'R'
  | "CTA" => 'L' | "CTC" => 'L' | "CTG" => 'L' | "CTT" => 'L'
  | "GAA" => 'E' | "GAC" => 'D' | "GAG" => 'E' | "GAT" => 'D'
  | "GCA" => 'A' | "GCC" => 'A' | "GCG" => 'A' | "GCT" => 'A'
  | "GGA" => 'G' | "GGC" => 'G' | "GGG" => 'G' | "GGT" => 'G'
  | "GTA" => 'V' | "GTC" => 'V' | "GTG" => 'V' | "GTT" => 'V'
  | "TAA" => '*' | "TAC" => 'Y' | "TAG" => '*' | "TAT" => 'Y'
  | "TCA" => 'S' | "TCC" => 'S' | "TCG" => 'S' | "TCT" => 'S'
  | "TGA" => '*' | "TGC" => 'C' | "TGG" => 'W' | "TGT" => 'C'
  | "TTA" => 'L' | "TTC" => 'F' | "TTG" => 'L' | "TTT" => 'F'
  | _ => '?'

/-- Loop body of the per-row classification in `annotateCodonCounts`
(`utils.py` lines 687-696): skip the wildtype codon, then accumulate the
codon's count into the stop / synonymous / nonsynonymous bucket according
to its translation relative to the wildtype amino acid. -/
def classifyStep (wt : String) (vals : String → Int)
    (acc : Int × Int × Int) (c : String) : Int × Int × Int :=
  if c = wt then acc
  else if CODON_TO_AA c = '*' then (acc.1 + vals c, acc.2.1, acc.2.2)
  else if CODON_TO_AA c = CODON_TO_AA wt then (acc.1, acc.2.1 + vals c, acc.2.2)
  else (acc.1, acc.2.1, acc.2.2 + vals c)

/-- The (nstop, nsyn, nnonsyn) triple computed for one site row by
`annotateCodonCounts` (`utils.py` lines 681-704). -/
def annotateStopSynNonsyn (wt : String) (vals : String → Int) :
    Int × Int × Int :=
  CODONS.foldl (classifyStep wt vals) (0, 0, 0)

/-- The `ncounts` column of `annotateCodonCounts`
(`df[dms_tools2.CODONS].sum(axis=1)`, `utils.py` line 667). -/
def ncountsRow (vals : String → Int) : Int := (CODONS.map vals).sum

lemma classify_foldl_sum (wt : String) (vals : String → Int) :
    ∀ (l : List String) (acc : Int × Int × Int),
      (l.foldl (classifyStep wt vals) acc).1 +
        (l.foldl (classifyStep wt vals) acc).2.1 +
        (l.foldl (classifyStep wt vals) acc).2.2 =
      acc.1 + acc.2.1 + acc.2.2 +
        ((l.filter (fun c => c ≠ wt)).map vals).sum := by
  intro l
  induction l with
  | nil => intro acc; simp
  | cons c l ih =>
    intro acc
    rw [List.foldl_cons, List.filter_cons]
    by_cases hc : c = wt
    · rw [ih]
      simp [classifyStep, hc]
    · rw [ih]
      have hstep : (classifyStep wt vals acc c).1 +
          (classifyStep wt vals acc c).2.1 +
          (classifyStep wt vals acc c).2.2 =
          acc.1 + acc.2.1 + acc.2.2 + vals c := by
        unfold classifyStep
        rw [if_neg hc]
        split_ifs <;> dsimp <;> ring
      rw [hstep]
      have hcond : (decide (c ≠ wt)) = true := by simp [hc]
      rw [hcond, if_pos rfl, List.map_cons, List.sum_cons]
      ring

lemma filter_ne_sum (vals : String → Int) (wt : String) :
    ∀ l : List String, l.Nodup → wt ∈ l →
      ((l.filter (fun c => c ≠ wt)).map vals).sum =
        (l.map vals).sum - vals wt := by
  intro l
  induction l with
  | nil => intro _ h; cases h
  | cons c l ih =>
    intro hnd hmem
    rw [List.filter_cons]
    by_cases hc : c = wt
    · subst hc
      have hfil : l.filter (fun x => x ≠ c) = l := by
        apply List.filter_eq_self.mpr
        intro x hx
        have hxc : x ≠ c := by
          intro h
          subst h
          exact (List.nodup_cons.mp hnd).1 hx
        simpa using hxc
      have hcond : (decide (c ≠ c)) = false := by simp
      rw [hcond, if_neg (by simp), hfil, List.map_cons, List.sum_cons]
      omega
    · have hmem' : wt ∈ l := by
        rcases List.mem_cons.mp hmem with h | h
        · exact absurd h.symm hc
        · exact h
      have hnd' := (List.nodup_cons.mp hnd).2
      have hcond : (decide (c ≠ wt)) = true := by simp [hc]
      rw [hcond, if_pos rfl, List.map_cons, List.sum_cons,
        List.map_cons, List.sum_cons, ih hnd' hmem']
      omega

lemma CODONS_nodup : CODONS.Nodup := by decide

/-- C6: for every site row of a codon-count table, `ncounts` is the sum of
all 64 codon counts, and `nstop + nsyn + nnonsyn` equals `ncounts` minus
the wildtype codon's count (each non-wildtype codon falls into exactly one
of the three translation classes). -/
theorem annotateCodonCounts_sums (wt : String) (vals : String → Int)
    (hwt : wt ∈ CODONS) :
    (ncountsRow vals = (CODONS.map vals).sum) ∧
    ((annotateStopSynNonsyn wt vals).1 +
       (annotateStopSynNonsyn wt vals).2.1 +
       (annotateStopSynNonsyn wt vals).2.2 =
     ncountsRow vals - vals wt) := by
  refine ⟨rfl, ?_⟩
  unfold annotateStopSynNonsyn
  rw [classify_foldl_sum wt vals CODONS (0, 0, 0),
    filter_ne_sum vals wt CODONS CODONS_nodup hwt]
  show 0 + 0 + 0 + _ = _
  unfold ncountsRow
  omega

/-- The site-2 row of the `annotateCodonCounts` doctest: wildtype `GGG`
with counts ATG=1, GGG=117, GGA=20, TGA=1 and all other codons 0. -/
def valsSite2 : String → Int := fun c =>
  if c = "ATG" then 1 else if c = "GGG" then 117
  else if c = "GGA" then 20 else if c = "TGA" then 1 else 0

/-- C6 witness at the doctest row `valsSite2`: `ncounts = 139`,
`(nstop, nsyn, nnonsyn) = (1, 20, 1)`, and `1 + 20 + 1 = 139 - 117`. -/
theorem annotateCodonCounts_sums_witness :
    ("GGG" ∈ CODONS) ∧
    (ncountsRow valsSite2 = 139) ∧
    (annotateStopSynNonsyn "GGG" valsSite2 = (1, 20, 1)) ∧
    ((annotateStopSynNonsyn "GGG" valsSite2).1 +
       (annotateStopSynNonsyn "GGG" valsSite2).2.1 +
       (annotateStopSynNonsyn "GGG" valsSite2).2.2 =
     ncountsRow valsSite2 - valsSite2 "GGG") :=
  ⟨by decide, by decide, by decide,
   (annotateCodonCounts_sums "GGG" valsSite2 (by decide)).2⟩

/-! ### Read consensus (`buildReadConsensus`, `utils.py` lines 232-291) -/

/-- The called (non-`N`) characters at position `i` across `reads`, in
read order: reads shorter than `i + 1` and reads with `N` at `i`
contribute nothing (the tally loop of `utils.py` lines 274-281). -/
def columnAt (reads : List (List Char)) (i : Nat) : List Char :=
  reads.filterMap fun r =>
    if h : i < r.length then
      if r.get ⟨i, h⟩ = 'N' then none else some (r.get ⟨i, h⟩)
    else none

/-- Maximum of two (tally, character) pairs in lexicographic order, the
order under which Python's `sorted(...)[-1]` on (count, character) tuples
picks the consensus candidate (`utils.py` line 286). -/
def pmax (p q : Nat × Char) : Nat × Char :=
  if p.1 < q.1 then q
  else if p.1 = q.1 ∧ p.2 < q.2 then q
  else p

/-- The lexicographically greatest (tally, character) pair of a column,
i.e. `sorted([(n, x) for (x, n) in counts.items()])[-1]` of `utils.py`
line 286.  The seed `(0, 'N')` is below every real pair (tallies are
at least 1). -/
def bestPair (col : List Char) : Nat × Char :=
  (col.map fun x => (col.count x, x)).foldl pmax (0, 'N')

/-- Consensus character at one position (`utils.py` lines 282-290):
`N` when fewer than `minreads` called identities, otherwise the best
pair's character when its tally fraction reaches `minconcur`, else `N`. -/
def consensusAt (reads : List (List Char)) (minreads : Nat)
    (minconcur : ℚ) (i : Nat) : Char :=
  if (columnAt reads i).length < minreads then 'N'
  else
    if minconcur ≤ ((bestPair (columnAt reads i)).1 : ℚ) /
        ((columnAt reads i).length : ℚ) then
      (bestPair (columnAt reads i)).2
    else 'N'

/-- `buildReadConsensus` from `utils.py` lines 232-291: one consensus
character per position up to the maximal read length. -/
def buildReadConsensus (reads : List (List Char)) (minreads : Nat)
    (minconcur : ℚ) : List Char :=
  (List.range ((reads.map List.length).foldl Nat.max 0)).map
    (consensusAt reads minreads minconcur)

/-- Lexicographic order on (tally, character) pairs. -/
def pLe (p q : Nat × Char) : Prop :=
  p.1 < q.1 ∨ (p.1 = q.1 ∧ p.2 ≤ q.2)

lemma pLe_refl (p : Nat × Char) : pLe p p := Or.inr ⟨rfl, le_rfl⟩

lemma pLe_trans {p q r : Nat × Char} (h1 : pLe p q) (h2 : pLe q r) :
    pLe p r := by
  rcases h1 with h1 | ⟨h1, h1'⟩ <;> rcases h2 with h2 | ⟨h2, h2'⟩
  · exact Or.inl (h1.trans h2)
  · exact Or.inl (h2 ▸ h1)
  · exact Or.inl (h1 ▸ h2)
  · exact Or.inr ⟨h1.trans h2, h1'.trans h2'⟩

lemma pLe_antisymm {p q : Nat × Char} (h1 : pLe p q) (h2 : pLe q p) :
    p = q := by
  rcases h1 with h1 | ⟨h1, h1'⟩ <;> rcases h2 with h2 | ⟨h2, h2'⟩
  · omega
  · omega
  · omega
  · exact Prod.ext h1 (le_antisymm h1' h2')

lemma left_pLe_pmax (p q : Nat × Char) : pLe p (pmax p q) := by
  unfold pmax
  split_ifs with h1 h2
  · exact Or.inl h1
  · exact Or.inr ⟨h2.1, le_of_lt h2.2⟩
  · exact pLe_refl p

lemma right_pLe_pmax (p q : Nat × Char) : pLe q (pmax p q) := by
  unfold pmax
  split_ifs with h1 h2
  · exact pLe_refl q
  · exact pLe_refl q
  · rcases Nat.lt_trichotomy p.1 q.1 with h | h | h
    · exact absurd h h1
    · rcases le_or_lt q.2 p.2 with h' | h'
      · exact Or.inr ⟨h.symm, h'⟩
      · exact absurd ⟨h, h'⟩ h2
    · exact Or.inl h

lemma pmax_eq_or (p q : Nat × Char) : pmax p q = p ∨ pmax p q = q := by
  unfold pmax
  split_ifs
  · exact Or.inr rfl
  · exact Or.inr rfl
  · exact Or.inl rfl

lemma foldl_pmax_init_le :
    ∀ (l : List (Nat × Char)) (a : Nat × Char), pLe a (l.foldl pmax a) := by
  intro l
  induction l with
  | nil => intro a; exact pLe_refl a
  | cons p l ih =>
    intro a
    rw [List.foldl_cons]
    exact pLe_trans (left_pLe_pmax a p) (ih (pmax a p))

lemma foldl_pmax_mem_le :
    ∀ (l : List (Nat × Char)) (a : Nat × Char),
      ∀ p ∈ l, pLe p (l.foldl pmax a) := by
  intro l
  induction l with
  | nil => intro a p hp; cases hp
  | cons q l ih =>
    intro a p hp
    rw [List.foldl_cons]
    rcases List.mem_cons.mp hp with h | h
    · subst h
      exact pLe_trans (right_pLe_pmax a p) (foldl_pmax_init_le l (pmax a p))
    · exact ih (pmax a q) p h

lemma foldl_pmax_mem :
    ∀ (l : List (Nat × Char)) (a : Nat × Char),
      l.foldl pmax a = a ∨ l.foldl pmax a ∈ l := by
  intro l
  induction l with
  | nil => intro a; exact Or.inl rfl
  | cons p l ih =>
    intro a
    rw [List.foldl_cons]
    rcases ih (pmax a p) with h | h
    · rcases pmax_eq_or a p with h' | h'
      · exact Or.inl (h.trans h')
      · refine Or.inr ?_
        rw [h.trans h']
        exact List.mem_cons_self p l
    · exact Or.inr (List.mem_cons_of_mem p h)

lemma columnAt_mem {reads : List (List Char)} {i : Nat} {x : Char} :
    x ∈ columnAt reads i ↔
      x ≠ 'N' ∧ ∃ r ∈ reads, ∃ h : i < r.length, r.get ⟨i, h⟩ = x := by
  unfold columnAt
  rw [List.mem_filterMap]
  constructor
  · rintro ⟨r, hr, hfr⟩
    by_cases h : i < r.length
    · rw [dif_pos h] at hfr
      by_cases hN : r.get ⟨i, h⟩ = 'N'
      · rw [if_pos hN] at hfr
        cases hfr
      · rw [if_neg hN] at hfr
        injection hfr with hfr
        exact ⟨hfr ▸ hN, r, hr, h, hfr⟩
    · rw [dif_neg h] at hfr
      cases hfr
  · rintro ⟨hxN, r, hr, h, hget⟩
    refine ⟨r, hr, ?_⟩
    rw [dif_pos h, if_neg (hget ▸ hxN), hget]

lemma columnAt_count (reads : List (List Char)) (i : Nat) {x : Char}
    (hx : x ≠ 'N') :
    (columnAt reads i).count x =
      reads.countP (fun r => r.getD i 'N' == x) := by
  induction reads with
  | nil => rfl
  | cons r rs ih =>
    rw [List.countP_cons]
    unfold columnAt at ih ⊢
    rw [List.filterMap_cons]
    by_cases h : i < r.length
    · rw [dif_pos h]
      have hgetD : r.getD i 'N' = r.get ⟨i, h⟩ := List.getD_eq_getElem r 'N' h
      by_cases hN : r.get ⟨i, h⟩ = 'N'
      · rw [if_pos hN, ih]
        have : (r.getD i 'N' == x) = false := by
          rw [hgetD, hN]
          exact beq_false_of_ne (Ne.symm hx)
        rw [this]
        simp
      · rw [if_neg hN, List.count_cons, ih]
        have : (r.getD i 'N' == x) = (r.get ⟨i, h⟩ == x) := by rw [hgetD]
        rw [this]
    · rw [dif_neg h]
      rw [ih]
      have : (r.getD i 'N' == x) = false := by
        rw [List.getD_eq_default _ _ (Nat.le_of_not_lt h)]
        exact beq_false_of_ne (Ne.symm hx)
      rw [this]
      simp

lemma columnAt_length (reads : List (List Char)) (i : Nat) :
    (columnAt reads i).length =
      reads.countP (fun r => !(r.getD i 'N' == 'N')) := by
  induction reads with
  | nil => rfl
  | cons r rs ih =>
    rw [List.countP_cons]
    unfold columnAt at ih ⊢
    rw [List.filterMap_cons]
    by_cases h : i < r.length
    · rw [dif_pos h]
      have hgetD : r.getD i 'N' = r.get ⟨i, h⟩ := List.getD_eq_getElem r 'N' h
      by_cases hN : r.get ⟨i, h⟩ = 'N'
      · rw [if_pos hN, ih]
        have : (r.getD i 'N' == 'N') = true := by
          rw [hgetD, hN]
          exact beq_self_eq_true 'N'
        rw [this]
        simp
      · rw [if_neg hN, List.length_cons, ih]
        have : (r.getD i 'N' == 'N') = false := by
          rw [hgetD]
          exact beq_false_of_ne hN
        rw [this]
        simp
    · rw [dif_neg h, ih]
      have : (r.getD i 'N' == 'N') = true := by
        rw [List.getD_eq_default _ _ (Nat.le_of_not_lt h)]
        exact beq_self_eq_true 'N'
      rw [this]
      simp

lemma bestPair_eq (col : List Char) (c : Char) (hc : c ∈ col)
    (hmax : ∀ x ∈ col, col.count x < col.count c ∨
      (col.count x = col.count c ∧ x ≤ c)) :
    bestPair col = (col.count c, c) := by
  have hcp : (col.count c, c) ∈ col.map fun x => (col.count x, x) :=
    List.mem_map.mpr ⟨c, hc, rfl⟩
  have h1 : pLe (col.count c, c) (bestPair col) :=
    foldl_pmax_mem_le _ (0, 'N') _ hcp
  have hpos : 0 < col.count c := List.count_pos_iff.mpr hc
  rcases foldl_pmax_mem (col.map fun x => (col.count x, x)) (0, 'N')
    with h2 | h2
  · exfalso
    rw [show bestPair col =
        (col.map fun x => (col.count x, x)).foldl pmax (0, 'N') from rfl,
      h2] at h1
    rcases h1 with h | ⟨h, -⟩
    · omega
    · omega
  · obtain ⟨y, hy, hby⟩ := List.mem_map.mp h2
    have hbest : bestPair col = (col.count y, y) := hby.symm
    have h3 : pLe (col.count y, y) (col.count c, c) := hmax y hy
    rw [hbest] at h1 ⊢
    exact pLe_antisymm h3 h1

lemma consensusAt_eval (reads : List (List Char)) (minreads : Nat)
    (minconcur : ℚ) (i n : Nat) (col : List Char) (b : Nat × Char)
    (hcol : columnAt reads i = col) (hn : col.length = n)
    (hb : bestPair col = b) :
    consensusAt reads minreads minconcur i =
      if n < minreads then 'N'
      else if minconcur ≤ (b.1 : ℚ) / (n : ℚ) then b.2 else 'N' := by
  unfold consensusAt
  rw [hcol, hn, hb]

lemma buildReadConsensus_getD (reads : List (List Char)) (minreads : Nat)
    (minconcur : ℚ) (i : Nat)
    (hi : i < (buildReadConsensus reads minreads minconcur).length) :
    (buildReadConsensus reads minreads minconcur).getD i 'N' =
      consensusAt reads minreads minconcur i := by
  have hmax : i < (reads.map List.length).foldl Nat.max 0 := by
    simpa [buildReadConsensus] using hi
  exact getD_map_range _ _ _ hmax 'N'

/-- The four reads of the `buildReadConsensus` doctest. -/
def readsEx1 : List (List Char) :=
  ["ATGCAT".toList, "NTGNANA".toList, "ACGNNTAT".toList, "NTGNTA".toList]

/-- The doctest reads after appending `CTGCATAT`. -/
def readsEx2 : List (List Char) := readsEx1 ++ ["CTGCATAT".toList]

lemma buildReadConsensus_ex1 :
    buildReadConsensus readsEx1 2 (3 / 4 : ℚ) = "ATGNNNAN".toList := by
  have h0 : consensusAt readsEx1 2 (3 / 4 : ℚ) 0 = 'A' := by
    rw [consensusAt_eval _ _ _ _ 2 ['A', 'A'] (2, 'A')
      (by decide) (by decide) (by decide)]
    norm_num
  have h1 : consensusAt readsEx1 2 (3 / 4 : ℚ) 1 = 'T' := by
    rw [consensusAt_eval _ _ _ _ 4 ['T', 'T', 'C', 'T'] (3, 'T')
      (by decide) (by decide) (by decide)]
    norm_num
  have h2 : consensusAt readsEx1 2 (3 / 4 : ℚ) 2 = 'G' := by
    rw [consensusAt_eval _ _ _ _ 4 ['G', 'G', 'G', 'G'] (4, 'G')
      (by decide) (by decide) (by decide)]
    norm_num
  have h3 : consensusAt readsEx1 2 (3 / 4 : ℚ) 3 = 'N' := by
    rw [consensusAt_eval _ _ _ _ 1 ['C'] (1, 'C')
      (by decide) (by decide) (by decide)]
    norm_num
  have h4 : consensusAt readsEx1 2 (3 / 4 : ℚ) 4 = 'N' := by
    rw [consensusAt_eval _ _ _ _ 3 ['A', 'A', 'T'] (2, 'A')
      (by decide) (by decide) (by decide)]
    norm_num
  have h5 : consensusAt readsEx1 2 (3 / 4 : ℚ) 5 = 'N' := by
    rw [consensusAt_eval _ _ _ _ 3 ['T', 'T', 'A'] (2, 'T')
      (by decide) (by decide) (by decide)]
    norm_num
  have h6 : consensusAt readsEx1 2 (3 / 4 : ℚ) 6 = 'A' := by
    rw [consensusAt_eval _ _ _ _ 2 ['A', 'A'] (2, 'A')
      (by decide) (by decide) (by decide)]
    norm_num
  have h7 : consensusAt readsEx1 2 (3 / 4 : ℚ) 7 = 'N' := by
    rw [consensusAt_eval _ _ _ _ 1 ['T'] (1, 'T')
      (by decide) (by decide) (by decide)]
    norm_num
  show (List.range ((readsEx1.map List.length).foldl Nat.max 0)).map
      (consensusAt readsEx1 2 (3 / 4 : ℚ)) = _
  rw [show (readsEx1.map List.length).foldl Nat.max 0 = 8 from by decide,
    show List.range 8 = [0, 1, 2, 3, 4, 5, 6, 7] from by decide]
  simp only [List.map_cons, List.map_nil]
  rw [h0, h1, h2, h3, h4, h5, h6, h7]
  decide

lemma buildReadConsensus_ex2 :
    buildReadConsensus readsEx2 2 (3 / 4 : ℚ) = "NTGCATAT".toList := by
  have h0 : consensusAt readsEx2 2 (3 / 4 : ℚ) 0 = 'N' := by
    rw [consensusAt_eval _ _ _ _ 3 ['A', 'A', 'C'] (2, 'A')
      (by decide) (by decide) (by decide)]
    norm_num
  have h1 : consensusAt readsEx2 2 (3 / 4 : ℚ) 1 = 'T' := by
    rw [consensusAt_eval _ _ _ _ 5 ['T', 'T', 'C', 'T', 'T'] (4, 'T')
      (by decide) (by decide) (by decide)]
    norm_num
  have h2 : consensusAt readsEx2 2 (3 / 4 : ℚ) 2 = 'G' := by
    rw [consensusAt_eval _ _ _ _ 5 ['G', 'G', 'G', 'G', 'G'] (5, 'G')
      (by decide) (by decide) (by decide)]
    norm_num
  have h3 : consensusAt readsEx2 2 (3 / 4 : ℚ) 3 = 'C' := by
    rw [consensusAt_eval _ _ _ _ 2 ['C', 'C'] (2, 'C')
      (by decide) (by decide) (by decide)]
    norm_num
  have h4 : consensusAt readsEx2 2 (3 / 4 : ℚ) 4 = 'A' := by
    rw [consensusAt_eval _ _ _ _ 4 ['A', 'A', 'T', 'A'] (3, 'A')
      (by decide) (by decide) (by decide)]
    norm_num
  have h5 : consensusAt readsEx2 2 (3 / 4 : ℚ) 5 = 'T' := by
    rw [consensusAt_eval _ _ _ _ 4 ['T', 'T', 'A', 'T'] (3, 'T')
      (by decide) (by decide) (by decide)]
    norm_num
  have h6 : consensusAt readsEx2 2 (3 / 4 : ℚ) 6 = 'A' := by
    rw [consensusAt_eval _ _ _ _ 3 ['A', 'A', 'A'] (3, 'A')
      (by decide) (by decide) (by decide)]
    norm_num
  have h7 : consensusAt readsEx2 2 (3 / 4 : ℚ) 7 = 'T' := by
    rw [consensusAt_eval _ _ _ _ 2 ['T', 'T'] (2, 'T')
      (by decide) (by decide) (by decide)]
    norm_num
  show (List.range ((readsEx2.map List.length).foldl Nat.max 0)).map
      (consensusAt readsEx2 2 (3 / 4 : ℚ)) = _
  rw [show (readsEx2.map List.length).foldl Nat.max 0 = 8 from by decide,
    show List.range 8 = [0, 1, 2, 3, 4, 5, 6, 7] from by decide]
  simp only [List.map_cons, List.map_nil]
  rw [h0, h1, h2, h3, h4, h5, h6, h7]
  decide

/-- C7: per position, `buildReadConsensus` emits `N` when fewer than
`minreads` non-`N` characters are tallied; otherwise, writing `c` for the
character with maximal tally (ties broken toward the lexicographically
largest character), it emits `c` exactly when `tally c / total` reaches
`minconcur` and `N` otherwise; and the two doctest vectors hold. -/
theorem buildReadConsensus_spec (reads : List (List Char)) (minreads : Nat)
    (minconcur : ℚ) (i : Nat) (hm : 1 ≤ minreads)
    (hi : i < (buildReadConsensus reads minreads minconcur).length) :
    ((reads.countP (fun r => !(r.getD i 'N' == 'N')) < minreads →
        (buildReadConsensus reads minreads minconcur).getD i 'N' = 'N') ∧
     (∀ c : Char, c ≠ 'N' →
        minreads ≤ reads.countP (fun r => !(r.getD i 'N' == 'N')) →
        0 < reads.countP (fun r => r.getD i 'N' == c) →
        (∀ x : Char, x ≠ 'N' →
          reads.countP (fun r => r.getD i 'N' == x) <
              reads.countP (fun r => r.getD i 'N' == c) ∨
            (reads.countP (fun r => r.getD i 'N' == x) =
                reads.countP (fun r => r.getD i 'N' == c) ∧ x ≤ c)) →
        ((minconcur ≤ (reads.countP (fun r => r.getD i 'N' == c) : ℚ) /
              (reads.countP (fun r => !(r.getD i 'N' == 'N')) : ℚ) →
            (buildReadConsensus reads minreads minconcur).getD i 'N' = c) ∧
         ((reads.countP (fun r => r.getD i 'N' == c) : ℚ) /
              (reads.countP (fun r => !(r.getD i 'N' == 'N')) : ℚ) <
              minconcur →
            (buildReadConsensus reads minreads minconcur).getD i 'N' =
              'N'))) ∧
     buildReadConsensus readsEx1 2 (3 / 4 : ℚ) = "ATGNNNAN".toList ∧
     buildReadConsensus readsEx2 2 (3 / 4 : ℚ) = "NTGCATAT".toList) := by
  have hout := buildReadConsensus_getD reads minreads minconcur i hi
  have hlen := columnAt_length reads i
  refine ⟨?_, ?_, buildReadConsensus_ex1, buildReadConsensus_ex2⟩
  · intro htot
    rw [hout]
    unfold consensusAt
    rw [if_pos (by omega : (columnAt reads i).length < minreads)]
  · intro c hcN htot hpos hmaxT
    have hcount : (columnAt reads i).count c =
        reads.countP (fun r => r.getD i 'N' == c) :=
      columnAt_count reads i hcN
    have hcmem : c ∈ columnAt reads i := by
      apply List.count_pos_iff.mp
      omega
    have hbest : bestPair (columnAt reads i) =
        ((columnAt reads i).count c, c) := by
      apply bestPair_eq _ _ hcmem
      intro x hx
      have hxN : x ≠ 'N' := (columnAt_mem.mp hx).1
      have hxcount : (columnAt reads i).count x =
          reads.countP (fun r => r.getD i 'N' == x) :=
        columnAt_count reads i hxN
      rcases hmaxT x hxN with h | ⟨h, h'⟩
      · exact Or.inl (by omega)
      · exact Or.inr ⟨by omega, h'⟩
    constructor
    · intro hconc
      rw [hout]
      unfold consensusAt
      rw [if_neg (by omega : ¬ (columnAt reads i).length < minreads),
        hbest, hcount, hlen, if_pos hconc]
    · intro hconc
      rw [hout]
      unfold consensusAt
      rw [if_neg (by omega : ¬ (columnAt reads i).length < minreads),
        hbest, hcount, hlen, if_neg (not_le.mpr hconc)]

/-- C7 witness: at position 3 of the doctest reads only one non-`N`
character is tallied, so with `minreads = 2` the theorem forces `N`
there. -/
theorem buildReadConsensus_spec_witness :
    ((1 : Nat) ≤ 2) ∧
    (3 < (buildReadConsensus readsEx1 2 (3 / 4 : ℚ)).length) ∧
    (readsEx1.countP (fun r => !(r.getD 3 'N' == 'N')) < 2) ∧
    (buildReadConsensus readsEx1 2 (3 / 4 : ℚ)).getD 3 'N' = 'N' := by
  have hlen : (buildReadConsensus readsEx1 2 (3 / 4 : ℚ)).length = 8 := by
    show ((List.range ((readsEx1.map List.length).foldl Nat.max 0)).map
      (consensusAt readsEx1 2 (3 / 4 : ℚ))).length = 8
    rw [List.length_map, List.length_range]
    decide
  have h3 : (3 : Nat) < (buildReadConsensus readsEx1 2 (3 / 4 : ℚ)).length := by
    omega
  have htot : readsEx1.countP (fun r => !(r.getD 3 'N' == 'N')) < 2 := by
    decide
  exact ⟨by omega, h3, htot,
    (buildReadConsensus_spec readsEx1 2 (3 / 4 : ℚ) 3 (by omega) h3).1 htot⟩

/-- C10: every consensus character is either `N` or a non-`N` character
observed at that position in some input read long enough to cover it
(3'-padding of shorter reads never contributes a call). -/
theorem buildReadConsensus_no_invention (reads : List (List Char))
    (minreads : Nat) (minconcur : ℚ) (i : Nat) (hm : 1 ≤ minreads)
    (hi : i < (buildReadConsensus reads minreads minconcur).length) :
    (buildReadConsensus reads minreads minconcur).getD i 'N' = 'N' ∨
    ((buildReadConsensus reads minreads minconcur).getD i 'N' ≠ 'N' ∧
     ∃ r ∈ reads, ∃ h : i < r.length,
       r.get ⟨i, h⟩ =
         (buildReadConsensus reads minreads minconcur).getD i 'N') := by
  rw [buildReadConsensus_getD reads minreads minconcur i hi]
  unfold consensusAt
  split_ifs with h1 h2
  · exact Or.inl rfl
  · rcases foldl_pmax_mem
        ((columnAt reads i).map fun x => ((columnAt reads i).count x, x))
        (0, 'N') with h | h
    · refine Or.inl ?_
      show (bestPair (columnAt reads i)).2 = 'N'
      rw [show bestPair (columnAt reads i) =
          ((columnAt reads i).map fun x =>
            ((columnAt reads i).count x, x)).foldl pmax (0, 'N') from rfl, h]
    · obtain ⟨y, hy, hby⟩ := List.mem_map.mp h
      have hbest : (bestPair (columnAt reads i)).2 = y := by
        show ((((columnAt reads i)).map fun x =>
          ((columnAt reads i).count x, x)).foldl pmax (0, 'N')).2 = y
        rw [← hby]
      obtain ⟨hyN, r, hr, hrl, hget⟩ := columnAt_mem.mp hy
      refine Or.inr ⟨by rw [hbest]; exact hyN, r, hr, hrl, ?_⟩
      rw [hbest, hget]
  · exact Or.inl rfl

/-- C10 witness at position 0 of the doctest reads: the consensus calls
`A`, which the first read holds at position 0. -/
theorem buildReadConsensus_no_invention_witness :
    ((1 : Nat) ≤ 2) ∧
    (0 < (buildReadConsensus readsEx1 2 (3 / 4 : ℚ)).length) ∧
    ((buildReadConsensus readsEx1 2 (3 / 4 : ℚ)).getD 0 'N' = 'N' ∨
     ((buildReadConsensus readsEx1 2 (3 / 4 : ℚ)).getD 0 'N' ≠ 'N' ∧
      ∃ r ∈ readsEx1, ∃ h : 0 < r.length,
        r.get ⟨0, h⟩ =
          (buildReadConsensus readsEx1 2 (3 / 4 : ℚ)).getD 0 'N')) := by
  have hlen : (buildReadConsensus readsEx1 2 (3 / 4 : ℚ)).length = 8 := by
    show ((List.range ((readsEx1.map List.length).foldl Nat.max 0)).map
      (consensusAt readsEx1 2 (3 / 4 : ℚ))).length = 8
    rw [List.length_map, List.length_range]
    decide
  have h0 : (0 : Nat) < (buildReadConsensus readsEx1 2 (3 / 4 : ℚ)).length := by
    omega
  exact ⟨by omega, h0,
    buildReadConsensus_no_invention readsEx1 2 (3 / 4 : ℚ) 0 (by omega) h0⟩

end DmsTools2
